import Mathlib

/-!
Verification of the STIXCore onboard telemetry compression/decompression codec
(`stixcore/calibration/compression.py`), a logarithmic sign-magnitude companding
scheme parameterized by a triple `(s, k, m)` of sign / exponent / mantissa bit
widths with `s + k + m = 8`.

The codec itself is not shipped with the sources at hand (only its test-suite
`stixcore/calibration/tests/test_compression.py` is); every definition below is
therefore modelled from the specification, with each free choice pinned down by
the literal test vectors of the test-suite.  Machine integers are modelled as
`Nat`/`Int` (the codec works on exact integers; only the variance is fractional,
modelled as an exact `Rat`), and fallible operations return `Except`.
-/

namespace STIXCore

/-- Modelled from the spec: the three caller-visible error kinds of the codec
(`CompressionSchemeParameterError`, `CompressionRangeError`,
`NonIntegerCompressionError`), each carrying its message text. -/
inductive CompressionError where
  | schemeParameter (msg : String)
  | range (msg : String)
  | nonInteger (msg : String)
deriving DecidableEq, Repr

/-- Modelled from the spec: a scalar input to the codec is a numpy scalar that
is either of an integer dtype (carrying an integer value) or of a
floating-point dtype (carrying a rational value; always rejected by the codec
regardless of whether the value is a whole number). -/
inductive PyNum where
  | int (i : Int)
  | float (q : Rat)
deriving DecidableEq, Repr

/-- Fuel-driven base-2 logarithm: `log2fuel f n = ⌊log₂ n⌋` whenever
`1 ≤ n < 2 ^ f`.  Structural recursion on the fuel keeps it kernel-reducible
on large binary numerals. -/
def log2fuel : Nat → Nat → Nat
  | 0, _ => 0
  | fuel + 1, n => if n ≤ 1 then 0 else log2fuel fuel (n / 2) + 1

/-- Position of the leading bit (`⌊log₂ n⌋` for `1 ≤ n < 2 ^ 300`); the codec
only ever takes logarithms of magnitudes below `2 ^ 300`. -/
def lg (n : Nat) : Nat := log2fuel 300 n

/-- Modelled from the spec: the largest representable input magnitude of a
scheme, "the value that would decompress from the highest valid code".  For
`k ≥ 1` this is the spec's closed form `(2^(m+1) - 1) << (2^k - 2)`; for
`k = 0` all codes are linear and the maximum is `2^m - 1`. -/
def max_value (k m : Nat) : Nat :=
  if k = 0 then 2 ^ m - 1 else (2 ^ (m + 1) - 1) <<< (2 ^ k - 2)

/-- Modelled from the spec: forward mapping of an unsigned magnitude to a
`k + m`-bit code.  Magnitudes below `2 ^ (m+1)` (exponent fields 0 and 1) map
linearly; otherwise the exponent is `e = ⌊log₂ x⌋ - m + 1` and the mantissa is
the magnitude truncated to `m` bits below the leading bit.  The spec's
`(e << m) | mantissa` is written `e <<< m + mantissa`, equal to it because the
mantissa occupies only the low `m` bits. -/
def compress_mag (k m x : Nat) : Nat :=
  if x < 2 ^ (m + 1) then x
  else (lg x - m + 1) <<< m + (x >>> (lg x - m) - 2 ^ m)

/-- Modelled from the spec: inverse mapping of a `k + m`-bit magnitude code to
its representative magnitude.  Exponent fields 0 and 1 are exact (the code is
the magnitude); the highest valid code decompresses to `max_value` exactly;
any other code decompresses to the floor of its bucket's midpoint,
`(2^m + mant) << (e-1)` plus the half-step bias `2^(e-2) - 1`. -/
def decompress_mag (k m c : Nat) : Nat :=
  if c >>> m ≤ 1 then c
  else if c >>> m = 2 ^ k - 1 ∧ c % 2 ^ m = 2 ^ m - 1 then max_value k m
  else (2 ^ m + c % 2 ^ m) <<< (c >>> m - 1) + (2 ^ (c >>> m - 2) - 1)

/-- Modelled from the spec: quantization variance attached to a magnitude
code.  Zero for the exact exponent fields 0 and 1; for the open-ended top
bucket (the highest valid code) it saturates to `max_value ^ 2`; otherwise it
is the variance `(2 * 4^(e-2) + 1) / 6` of the uniform distribution of the
bucket's `2^(e-1)` magnitudes around the representative point (the test-suite
records the IEEE-754 rounding of this exact rational). -/
def variance (k m c : Nat) : ℚ :=
  if c >>> m ≤ 1 then 0
  else if c >>> m = 2 ^ k - 1 ∧ c % 2 ^ m = 2 ^ m - 1 then (max_value k m : ℚ) ^ 2
  else (2 * 4 ^ (c >>> m - 2) + 1) / 6

/-- Modelled from the spec: every entry point first validates the scheme:
`s` must be 0 or 1 and `s + k + m` must equal 8. -/
def scheme_valid (s k m : Nat) : Bool :=
  (s == 0 || s == 1) && s + k + m == 8

/-- Modelled from the spec: message of the scheme-validation error. -/
def schemeErrorMsg : String :=
  "Compression scheme requires s + k + m = 8 and s in (0, 1)"

/-- Modelled from the spec: message of the non-integer input error. -/
def nonIntegerMsg : String :=
  "Compression only supports integer values"

/-- Modelled from the spec: `compress(value, s, k, m)`.  Validates the scheme,
rejects floating-point input, raises a range error (message starting
"Valid input range exceeded") when the magnitude exceeds `max_value`, and
otherwise emits `compress_mag` of the magnitude with the top bit of the code
set when `s = 1` and the value is negative; the value 0 always maps to
code 0. -/
def compress (v : PyNum) (s k m : Nat) : Except CompressionError Nat :=
  if scheme_valid s k m then
    match v with
    | .float _ => .error (.nonInteger nonIntegerMsg)
    | .int i =>
      if max_value k m < i.natAbs then .error (.range "Valid input range exceeded")
      else if s = 1 ∧ i < 0 then .ok (compress_mag k m i.natAbs + 2 ^ (k + m))
      else .ok (compress_mag k m i.natAbs)
  else .error (.schemeParameter schemeErrorMsg)

/-- Modelled from the spec: the magnitude part of a full code — for `s = 1`
the code's low `k + m` bits, for `s = 0` the code itself. -/
def mag_code (s k m c : Nat) : Nat :=
  if s = 1 then c % 2 ^ (k + m) else c

/-- Modelled from the spec: `decompress(code, s, k, m, return_variance=True)`.
Validates the scheme, rejects floating-point input, raises a range error with
exact message "Compressed values must be in the range 0 to <max_code>" for
codes outside `[0, 2^(s+k+m) - 1]`, reconstructs the magnitude and its
variance, raises a range error with exact message "Decompressed value too
large to fit into uint64" when the magnitude exceeds `2^64 - 1`, and negates
the value when `s = 1` and the code's top bit is set (the negative-zero code
`2^(k+m)` thus returns `0`). -/
def decompress_var (v : PyNum) (s k m : Nat) : Except CompressionError (Int × ℚ) :=
  if scheme_valid s k m then
    match v with
    | .float _ => .error (.nonInteger nonIntegerMsg)
    | .int i =>
      if i < 0 ∨ ((2 ^ (s + k + m) - 1 : Nat) : Int) < i then
        .error (.range ("Compressed values must be in the range 0 to " ++
          toString (2 ^ (s + k + m) - 1 : Nat)))
      else if 2 ^ 64 - 1 < decompress_mag k m (mag_code s k m i.toNat) then
        .error (.range "Decompressed value too large to fit into uint64")
      else if s = 1 ∧ 2 ^ (k + m) ≤ i.toNat then
        .ok (-(decompress_mag k m (mag_code s k m i.toNat) : Int),
          variance k m (mag_code s k m i.toNat))
      else
        .ok ((decompress_mag k m (mag_code s k m i.toNat) : Int),
          variance k m (mag_code s k m i.toNat))
  else .error (.schemeParameter schemeErrorMsg)

/-- Modelled from the spec: `decompress(code, s, k, m)` without the variance —
the same code path as `decompress_var`, returning only the value. -/
def decompress (v : PyNum) (s k m : Nat) : Except CompressionError Int :=
  (decompress_var v s k m).map Prod.fst

/-- Element-wise application with fail-fast error semantics: the whole call
fails on the first failing element, no partial results are returned. -/
def map_except {α β : Type} (f : α → Except CompressionError β) :
    List α → Except CompressionError (List β)
  | [] => .ok []
  | x :: xs =>
    match f x, map_except f xs with
    | .error e, _ => .error e
    | .ok _, .error e => .error e
    | .ok y, .ok ys => .ok (y :: ys)

/-- Modelled from the spec: `compress` applied to an array: the scheme is
validated before any per-element processing, then the scalar map is applied
element-wise, the first failing element failing the whole call. -/
def compress_array (vs : List PyNum) (s k m : Nat) : Except CompressionError (List Nat) :=
  if scheme_valid s k m then map_except (fun v => compress v s k m) vs
  else .error (.schemeParameter schemeErrorMsg)

/-- Modelled from the spec: `decompress` applied to an array, element-wise with
fail-fast semantics, mirroring `compress_array`. -/
def decompress_array (vs : List PyNum) (s k m : Nat) : Except CompressionError (List Int) :=
  if scheme_valid s k m then map_except (fun v => decompress v s k m) vs
  else .error (.schemeParameter schemeErrorMsg)

deriving instance DecidableEq for Except

/-! ### Properties of the fuel-driven base-2 logarithm -/

theorem log2fuel_spec (fuel : Nat) : ∀ n : Nat, 1 ≤ n → n < 2 ^ fuel →
    2 ^ log2fuel fuel n ≤ n ∧ n < 2 ^ (log2fuel fuel n + 1) := by
  induction fuel with
  | zero => intro n h1 h2; simp at h2; omega
  | succ f ih =>
    intro n h1 h2
    by_cases hle : n ≤ 1
    · have hn : n = 1 := by omega
      subst hn
      simp [log2fuel]
    · rw [log2fuel, if_neg hle]
      have h1' : 1 ≤ n / 2 := by omega
      have h2' : n / 2 < 2 ^ f := by
        rw [Nat.div_lt_iff_lt_mul (by norm_num : 0 < 2)]
        calc n < 2 ^ (f + 1) := h2
          _ = 2 ^ f * 2 := by rw [Nat.pow_succ]
      obtain ⟨hl, hr⟩ := ih (n / 2) h1' h2'
      constructor
      · have hm := Nat.mul_le_mul_right 2 hl
        rw [Nat.pow_succ]
        omega
      · have h5 : 1 ≤ 2 ^ (log2fuel f (n / 2) + 1) := Nat.one_le_two_pow
        have h3 : n / 2 ≤ 2 ^ (log2fuel f (n / 2) + 1) - 1 := by omega
        have h4 := Nat.mul_le_mul_right 2 h3
        rw [Nat.pow_succ, Nat.pow_succ]
        omega

theorem lg_spec (n : Nat) (h1 : 1 ≤ n) (h2 : n < 2 ^ 300) :
    2 ^ lg n ≤ n ∧ n < 2 ^ (lg n + 1) := log2fuel_spec 300 n h1 h2

theorem le_lg (t x : Nat) (h : 2 ^ t ≤ x) (hx : x < 2 ^ 300) : t ≤ lg x := by
  obtain ⟨hl, hr⟩ := lg_spec x (le_trans Nat.one_le_two_pow h) hx
  by_contra hlt
  push_neg at hlt
  have h2 : 2 ^ (lg x + 1) ≤ 2 ^ t := Nat.pow_le_pow_right (by norm_num) (by omega)
  omega

theorem lg_lt (t x : Nat) (h : x < 2 ^ t) (h1 : 1 ≤ x) (hx : x < 2 ^ 300) : lg x < t := by
  obtain ⟨hl, hr⟩ := lg_spec x h1 hx
  by_contra hge
  push_neg at hge
  have : 2 ^ t ≤ 2 ^ lg x := Nat.pow_le_pow_right (by norm_num) hge
  omega

theorem lg_mono (a b : Nat) (h1 : 1 ≤ a) (hab : a ≤ b) (hb : b < 2 ^ 300) :
    lg a ≤ lg b := by
  have ha : a < 2 ^ 300 := lt_of_le_of_lt hab hb
  obtain ⟨hal, har⟩ := lg_spec a h1 ha
  obtain ⟨hbl, hbr⟩ := lg_spec b (le_trans h1 hab) hb
  by_contra hlt
  push_neg at hlt
  have : 2 ^ (lg b + 1) ≤ 2 ^ lg a := Nat.pow_le_pow_right (by norm_num) (by omega)
  omega

/-! ### Bounds on the forward magnitude map -/

theorem lg_div_bounds (m x : Nat) (hlin : 2 ^ (m + 1) ≤ x) (hx : x < 2 ^ 300) :
    2 ^ m ≤ x / 2 ^ (lg x - m) ∧ x / 2 ^ (lg x - m) < 2 ^ (m + 1) := by
  have h1 : 1 ≤ x := le_trans Nat.one_le_two_pow hlin
  obtain ⟨hl, hr⟩ := lg_spec x h1 hx
  have hpm : m + 1 ≤ lg x := le_lg (m + 1) x hlin hx
  constructor
  · rw [Nat.le_div_iff_mul_le (Nat.two_pow_pos _)]
    calc 2 ^ m * 2 ^ (lg x - m) = 2 ^ lg x := by
          rw [← Nat.pow_add]
          congr 1
          omega
      _ ≤ x := hl
  · rw [Nat.div_lt_iff_lt_mul (Nat.two_pow_pos _)]
    calc x < 2 ^ (lg x + 1) := hr
      _ = 2 ^ (m + 1) * 2 ^ (lg x - m) := by
          rw [← Nat.pow_add]
          congr 1
          omega

theorem max_value_lt (k m : Nat) (hk : k ≤ 8) (hm : m ≤ 8) :
    max_value k m < 2 ^ 300 := by
  unfold max_value
  split
  · have : (2 : Nat) ^ m ≤ 2 ^ 300 := Nat.pow_le_pow_right (by norm_num) (by omega)
    omega
  · rw [Nat.shiftLeft_eq]
    have h1 : (2 ^ (m + 1) - 1) * 2 ^ (2 ^ k - 2) < 2 ^ (m + 1) * 2 ^ (2 ^ k - 2) := by
      have hp := Nat.two_pow_pos (m + 1)
      exact (Nat.mul_lt_mul_right (Nat.two_pow_pos _)).mpr (by omega)
    have h2 : 2 ^ (m + 1) * 2 ^ (2 ^ k - 2) ≤ 2 ^ 300 := by
      rw [← Nat.pow_add]
      apply Nat.pow_le_pow_right (by norm_num)
      have : 2 ^ k ≤ 2 ^ 8 := Nat.pow_le_pow_right (by norm_num) hk
      omega
    omega

theorem compress_mag_mono (k m a b : Nat) (hab : a ≤ b) (hb : b < 2 ^ 300) :
    compress_mag k m a ≤ compress_mag k m b := by
  unfold compress_mag
  by_cases ha : a < 2 ^ (m + 1)
  · by_cases hbl : b < 2 ^ (m + 1)
    · rw [if_pos ha, if_pos hbl]
      exact hab
    · rw [if_pos ha, if_neg hbl]
      push_neg at hbl
      have hpb : m + 1 ≤ lg b := le_lg (m + 1) b hbl hb
      rw [Nat.shiftLeft_eq]
      have h2 : 2 * 2 ^ m ≤ (lg b - m + 1) * 2 ^ m := Nat.mul_le_mul_right _ (by omega)
      have h2m : 2 * 2 ^ m = 2 ^ (m + 1) := by rw [Nat.pow_succ]; ring
      omega
  · have hbl : ¬ b < 2 ^ (m + 1) := by omega
    rw [if_neg ha, if_neg hbl]
    push_neg at ha hbl
    have ha1 : 1 ≤ a := le_trans Nat.one_le_two_pow ha
    have ha300 : a < 2 ^ 300 := lt_of_le_of_lt hab hb
    have hpa : m + 1 ≤ lg a := le_lg (m + 1) a ha ha300
    have hpb : m + 1 ≤ lg b := le_lg (m + 1) b hbl hb
    have hmono : lg a ≤ lg b := lg_mono a b ha1 hab hb
    rw [Nat.shiftLeft_eq, Nat.shiftLeft_eq, Nat.shiftRight_eq_div_pow,
      Nat.shiftRight_eq_div_pow]
    rcases Nat.eq_or_lt_of_le hmono with heq | hlt
    · rw [heq]
      exact Nat.add_le_add_left
        (Nat.sub_le_sub_right (Nat.div_le_div_right hab) _) _
    · obtain ⟨_, hua⟩ := lg_div_bounds m a ha ha300
      obtain ⟨hlb, _⟩ := lg_div_bounds m b hbl hb
      have hxa : a / 2 ^ (lg a - m) - 2 ^ m < 2 ^ m := by
        have h2m : 2 ^ (m + 1) = 2 * 2 ^ m := by rw [Nat.pow_succ]; ring
        omega
      apply Nat.le_of_lt
      calc (lg a - m + 1) * 2 ^ m + (a / 2 ^ (lg a - m) - 2 ^ m)
          < (lg a - m + 1) * 2 ^ m + 2 ^ m := Nat.add_lt_add_left hxa _
        _ = (lg a - m + 2) * 2 ^ m := by ring
        _ ≤ (lg b - m + 1) * 2 ^ m := Nat.mul_le_mul_right _ (by omega)
        _ ≤ (lg b - m + 1) * 2 ^ m + (b / 2 ^ (lg b - m) - 2 ^ m) :=
            Nat.le_add_right _ _

theorem compress_mag_lt (k m x : Nat) (hk : k ≤ 8) (hm : m ≤ 8)
    (hx : x ≤ max_value k m) : compress_mag k m x < 2 ^ (k + m) := by
  by_cases hk0 : k = 0
  · subst hk0
    have hmv : max_value 0 m = 2 ^ m - 1 := by unfold max_value; rw [if_pos rfl]
    rw [hmv] at hx
    have h1 : (1 : Nat) ≤ 2 ^ m := Nat.one_le_two_pow
    have hpow : (2 : Nat) ^ m ≤ 2 ^ (m + 1) := Nat.pow_le_pow_right (by norm_num) (by omega)
    have hlin : x < 2 ^ (m + 1) := by omega
    unfold compress_mag
    rw [if_pos hlin, Nat.zero_add]
    omega
  · by_cases hlin : x < 2 ^ (m + 1)
    · unfold compress_mag
      rw [if_pos hlin]
      have : 2 ^ (m + 1) ≤ 2 ^ (k + m) := Nat.pow_le_pow_right (by norm_num) (by omega)
      omega
    · push_neg at hlin
      unfold compress_mag
      rw [if_neg (by omega)]
      have hx300 : x < 2 ^ 300 := lt_of_le_of_lt hx (max_value_lt k m hk hm)
      have h2k : 2 ≤ 2 ^ k := by
        calc (2 : Nat) = 2 ^ 1 := by norm_num
          _ ≤ 2 ^ k := Nat.pow_le_pow_right (by norm_num) (by omega)
      have hub : x < 2 ^ (m + 2 ^ k - 1) := by
        have hmv : max_value k m = (2 ^ (m + 1) - 1) * 2 ^ (2 ^ k - 2) := by
          unfold max_value
          rw [if_neg hk0, Nat.shiftLeft_eq]
        have h1 : (2 ^ (m + 1) - 1) * 2 ^ (2 ^ k - 2) < 2 ^ (m + 1) * 2 ^ (2 ^ k - 2) :=
          (Nat.mul_lt_mul_right (Nat.two_pow_pos _)).mpr
            (by have := Nat.two_pow_pos (m + 1); omega)
        have h2 : 2 ^ (m + 1) * 2 ^ (2 ^ k - 2) = 2 ^ (m + 2 ^ k - 1) := by
          rw [← Nat.pow_add]
          congr 1
          omega
        omega
      have hple : lg x < m + 2 ^ k - 1 :=
        lg_lt _ x hub (le_trans Nat.one_le_two_pow hlin) hx300
      have hpa : m + 1 ≤ lg x := le_lg (m + 1) x hlin hx300
      obtain ⟨hdl, hdu⟩ := lg_div_bounds m x hlin hx300
      rw [Nat.shiftLeft_eq, Nat.shiftRight_eq_div_pow]
      have he : lg x - m + 1 ≤ 2 ^ k - 1 := by omega
      have h1 : (lg x - m + 1) * 2 ^ m ≤ (2 ^ k - 1) * 2 ^ m :=
        Nat.mul_le_mul_right _ he
      have h2 : x / 2 ^ (lg x - m) - 2 ^ m ≤ 2 ^ m - 1 := by
        have h2m : 2 ^ (m + 1) = 2 * 2 ^ m := by rw [Nat.pow_succ]; ring
        omega
      have hmul : (2 ^ k - 1) * 2 ^ m + 2 ^ m = 2 ^ (k + m) := by
        obtain ⟨t, ht⟩ : ∃ t, 2 ^ k = t + 1 := ⟨2 ^ k - 1, by omega⟩
        rw [Nat.pow_add, ht, Nat.add_sub_cancel]
        ring
      have hm1 : (1 : Nat) ≤ 2 ^ m := Nat.one_le_two_pow
      omega

/-! ### Unfolding helpers -/

theorem scheme_valid_iff (s k m : Nat) :
    scheme_valid s k m = true ↔ ((s = 0 ∨ s = 1) ∧ s + k + m = 8) := by
  unfold scheme_valid
  simp [Bool.and_eq_true, Bool.or_eq_true, beq_iff_eq]

theorem compress_int_eq (s k m : Nat) (hv : scheme_valid s k m = true) (i : Int) :
    compress (.int i) s k m =
      if max_value k m < i.natAbs then .error (.range "Valid input range exceeded")
      else if s = 1 ∧ i < 0 then .ok (compress_mag k m i.natAbs + 2 ^ (k + m))
      else .ok (compress_mag k m i.natAbs) := by
  unfold compress
  rw [if_pos hv]

theorem decompress_var_int_eq (s k m : Nat) (hv : scheme_valid s k m = true) (i : Int) :
    decompress_var (.int i) s k m =
      if i < 0 ∨ ((2 ^ (s + k + m) - 1 : Nat) : Int) < i then
        .error (.range ("Compressed values must be in the range 0 to " ++
          toString (2 ^ (s + k + m) - 1 : Nat)))
      else if 2 ^ 64 - 1 < decompress_mag k m (mag_code s k m i.toNat) then
        .error (.range "Decompressed value too large to fit into uint64")
      else if s = 1 ∧ 2 ^ (k + m) ≤ i.toNat then
        .ok (-(decompress_mag k m (mag_code s k m i.toNat) : Int),
          variance k m (mag_code s k m i.toNat))
      else
        .ok ((decompress_mag k m (mag_code s k m i.toNat) : Int),
          variance k m (mag_code s k m i.toNat)) := by
  unfold decompress_var
  rw [if_pos hv]

/-! ### C4: exact linear region and top-of-range vectors for scheme (0,5,3) -/

/-- C4: for the scheme `(s,k,m) = (0,5,3)` the linear region is exact in both
directions — `compress v = v` and `decompress v = v` for every `v` in `0..15`
— and at the top of the range `compress 16106127360 = 255` and
`decompress 255 = 16106127360`. -/
theorem C4_linear_exact_053 :
    (∀ v : Nat, v < 16 → compress (.int v) 0 5 3 = .ok v ∧
      decompress (.int v) 0 5 3 = .ok v) ∧
    compress (.int 16106127360) 0 5 3 = .ok 255 ∧
    decompress (.int 255) 0 5 3 = .ok 16106127360 := by decide

/-- Witness for C4 at the concrete linear value `v = 7`. -/
theorem C4_linear_exact_053_witness :
    compress (.int 7) 0 5 3 = .ok 7 ∧ decompress (.int 7) 0 5 3 = .ok 7 :=
  C4_linear_exact_053.1 7 (by decide)

/-! ### C7: scheme validation happens first -/

/-- C7: for every `(s,k,m)` with `s + k + m ≠ 8` or `s ∉ {0,1}`, compress and
decompress — in scalar and array form, including the variance-returning form —
fail with the scheme parameter error regardless of the input value, before any
per-element processing. -/
theorem C7_scheme_parameter_error (s k m : Nat)
    (h : ¬ (s + k + m = 8 ∧ (s = 0 ∨ s = 1))) (v : PyNum) (vs : List PyNum) :
    compress v s k m = .error (.schemeParameter schemeErrorMsg) ∧
    decompress v s k m = .error (.schemeParameter schemeErrorMsg) ∧
    decompress_var v s k m = .error (.schemeParameter schemeErrorMsg) ∧
    compress_array vs s k m = .error (.schemeParameter schemeErrorMsg) ∧
    decompress_array vs s k m = .error (.schemeParameter schemeErrorMsg) := by
  have hb : scheme_valid s k m = false := by
    rcases Bool.eq_false_or_eq_true (scheme_valid s k m) with hb | hb
    · rw [scheme_valid_iff] at hb
      exact absurd ⟨hb.2, hb.1⟩ h
    · exact hb
  refine ⟨?_, ?_, ?_, ?_, ?_⟩ <;>
    simp [compress, decompress, decompress_var, compress_array, decompress_array,
      hb, Except.map]

/-- Witness for C7 at the test-suite's invalid scheme `(1,5,4)`. -/
theorem C7_scheme_parameter_error_witness :
    compress (.int 1) 1 5 4 = .error (.schemeParameter schemeErrorMsg) ∧
    decompress (.int 1) 1 5 4 = .error (.schemeParameter schemeErrorMsg) ∧
    decompress_var (.int 1) 1 5 4 = .error (.schemeParameter schemeErrorMsg) ∧
    compress_array [.int 1] 1 5 4 = .error (.schemeParameter schemeErrorMsg) ∧
    decompress_array [.int 1] 1 5 4 = .error (.schemeParameter schemeErrorMsg) :=
  C7_scheme_parameter_error 1 5 4 (by decide) (.int 1) [.int 1]

/-! ### C8: floating-point inputs are always rejected -/

/-- C8: under any valid scheme, compress and decompress reject every input of
floating-point type with the non-integer error, even when its value is a whole
number — in particular `10.0` under the scheme `(0,5,3)`. -/
theorem C8_float_rejected (s k m : Nat) (hv : scheme_valid s k m = true) (q : ℚ) :
    compress (.float q) s k m = .error (.nonInteger nonIntegerMsg) ∧
    decompress (.float q) s k m = .error (.nonInteger nonIntegerMsg) ∧
    compress (.float 10) 0 5 3 = .error (.nonInteger nonIntegerMsg) ∧
    decompress (.float 10) 0 5 3 = .error (.nonInteger nonIntegerMsg) := by
  refine ⟨?_, ?_, by decide, by decide⟩
  · simp [compress, hv]
  · simp [decompress, decompress_var, hv, Except.map]

/-- Witness for C8 at the scheme `(0,5,3)` and the whole-number float `10.0`. -/
theorem C8_float_rejected_witness :
    compress (.float 10) 0 5 3 = .error (.nonInteger nonIntegerMsg) ∧
    decompress (.float 10) 0 5 3 = .error (.nonInteger nonIntegerMsg) ∧
    compress (.float 10) 0 5 3 = .error (.nonInteger nonIntegerMsg) ∧
    decompress (.float 10) 0 5 3 = .error (.nonInteger nonIntegerMsg) :=
  C8_float_rejected 0 5 3 (by decide) 10

/-- Computable string-prefix test (`String.startsWith` is opaque to the
kernel, so the test is phrased on the underlying character lists). -/
def starts_with (s p : String) : Bool :=
  p.data.isPrefixOf s.data

theorem map_error_eq {ε α β : Type} (f : α → β) (e : ε) :
    (Except.error e : Except ε α).map f = .error e := rfl

theorem map_ok_eq {ε α β : Type} (f : α → β) (a : α) :
    (Except.ok a : Except ε α).map f = .ok (f a) := rfl

/-! ### C2: compress range error -/

set_option maxRecDepth 4000

/-- C2: under a valid scheme with `k ≥ 1` (so that the spec's closed form
`(2^(m+1) - 1) << (2^k - 2)` is well defined), `compress` fails with a
`CompressionRangeError` whose message starts "Valid input range exceeded"
exactly when the magnitude of the value exceeds that bound; in particular
`compress 256` under `(0,1,7)` raises it while `compress 16106127360` under
`(0,5,3)` succeeds with code 255.  The hypothesis `s = 1 ∨ 0 ≤ v` restricts
to the inputs the spec defines (negative values only enter signed schemes). -/
theorem C2_compress_range_error (s k m : Nat) (hv : scheme_valid s k m = true)
    (hk : 1 ≤ k) (v : Int) (hs : s = 1 ∨ 0 ≤ v) :
    ((∃ msg, compress (.int v) s k m = .error (.range msg) ∧
        starts_with msg "Valid input range exceeded" = true) ↔
      ((2 ^ (m + 1) - 1) <<< (2 ^ k - 2) : Nat) < v.natAbs) ∧
    compress (.int 256) 0 1 7 = .error (.range "Valid input range exceeded") ∧
    compress (.int 16106127360) 0 5 3 = .ok 255 := by
  refine ⟨?_, by decide, by decide⟩
  have hmax : max_value k m = (2 ^ (m + 1) - 1) <<< (2 ^ k - 2) := by
    unfold max_value
    rw [if_neg (by omega)]
  rw [← hmax, compress_int_eq s k m hv v]
  by_cases hlt : max_value k m < v.natAbs
  · rw [if_pos hlt]
    constructor
    · intro _
      exact hlt
    · intro _
      exact ⟨"Valid input range exceeded", rfl, by decide⟩
  · rw [if_neg hlt]
    constructor
    · rintro ⟨msg, hmsg, _⟩
      split at hmsg <;> simp at hmsg
    · intro hcon
      omega

/-- Witness for C2 at scheme `(0,1,7)` and the out-of-range value 256. -/
theorem C2_compress_range_error_witness :
    ((∃ msg, compress (.int 256) 0 1 7 = .error (.range msg) ∧
        starts_with msg "Valid input range exceeded" = true) ↔
      ((2 ^ (7 + 1) - 1) <<< (2 ^ 1 - 2) : Nat) < (256 : Int).natAbs) ∧
    compress (.int 256) 0 1 7 = .error (.range "Valid input range exceeded") ∧
    compress (.int 16106127360) 0 5 3 = .ok 255 :=
  C2_compress_range_error 0 1 7 (by decide) (by decide) 256 (Or.inr (by decide))

/-! ### C3: decompress range errors -/

/-- C3: under a valid scheme, `decompress` fails with the exact message
"Compressed values must be in the range 0 to <max_code>" precisely when the
code lies outside `[0, 2^(s+k+m) - 1]`, and for in-range codes it fails with
the exact message "Decompressed value too large to fit into uint64" precisely
when the reconstructed magnitude exceeds the unsigned 64-bit range; in
particular `decompress 256` under `(0,1,7)` gives exactly the first message
with max code 255, and `decompress 255` under `(0,6,2)` gives exactly the
second. -/
theorem C3_decompress_range_errors (s k m : Nat) (hv : scheme_valid s k m = true)
    (i : Int) :
    ((∃ msg, decompress (.int i) s k m = .error (.range msg) ∧
        msg = "Compressed values must be in the range 0 to " ++
          toString (2 ^ (s + k + m) - 1 : Nat)) ↔
      (i < 0 ∨ ((2 ^ (s + k + m) - 1 : Nat) : Int) < i)) ∧
    (¬ (i < 0 ∨ ((2 ^ (s + k + m) - 1 : Nat) : Int) < i) →
      (decompress (.int i) s k m =
          .error (.range "Decompressed value too large to fit into uint64") ↔
        2 ^ 64 - 1 < decompress_mag k m (mag_code s k m i.toNat))) ∧
    decompress (.int 256) 0 1 7 =
      .error (.range "Compressed values must be in the range 0 to 255") ∧
    decompress (.int 255) 0 6 2 =
      .error (.range "Decompressed value too large to fit into uint64") := by
  refine ⟨?_, ?_, by decide, by decide⟩
  · have h8 : s + k + m = 8 := ((scheme_valid_iff s k m).mp hv).2
    rw [decompress, decompress_var_int_eq s k m hv i]
    by_cases h1 : i < 0 ∨ ((2 ^ (s + k + m) - 1 : Nat) : Int) < i
    · rw [if_pos h1, map_error_eq]
      exact ⟨fun _ => h1, fun _ => ⟨_, rfl, rfl⟩⟩
    · rw [if_neg h1]
      constructor
      · rintro ⟨msg, hmsg, hmsg'⟩
        rw [h8] at hmsg'
        by_cases h2 : 2 ^ 64 - 1 < decompress_mag k m (mag_code s k m i.toNat)
        · rw [if_pos h2, map_error_eq] at hmsg
          simp only [Except.error.injEq, CompressionError.range.injEq] at hmsg
          rw [← hmsg] at hmsg'
          exact absurd hmsg' (by decide)
        · rw [if_neg h2] at hmsg
          split at hmsg <;> rw [map_ok_eq] at hmsg <;> simp at hmsg
      · intro hcon
        exact absurd hcon h1
  · intro h1
    rw [decompress, decompress_var_int_eq s k m hv i, if_neg h1]
    by_cases h2 : 2 ^ 64 - 1 < decompress_mag k m (mag_code s k m i.toNat)
    · rw [if_pos h2, map_error_eq]
      exact ⟨fun _ => h2, fun _ => rfl⟩
    · rw [if_neg h2]
      constructor
      · intro hmsg
        split at hmsg <;> rw [map_ok_eq] at hmsg <;> simp at hmsg
      · intro hcon
        exact absurd hcon h2

/-- Witness for C3 at scheme `(0,1,7)` and the out-of-range code 256. -/
theorem C3_decompress_range_errors_witness :
    ((∃ msg, decompress (.int 256) 0 1 7 = .error (.range msg) ∧
        msg = "Compressed values must be in the range 0 to " ++
          toString (2 ^ (0 + 1 + 7) - 1 : Nat)) ↔
      ((256 : Int) < 0 ∨ ((2 ^ (0 + 1 + 7) - 1 : Nat) : Int) < 256)) ∧
    (¬ ((256 : Int) < 0 ∨ ((2 ^ (0 + 1 + 7) - 1 : Nat) : Int) < 256) →
      (decompress (.int 256) 0 1 7 =
          .error (.range "Decompressed value too large to fit into uint64") ↔
        2 ^ 64 - 1 < decompress_mag 1 7 (mag_code 0 1 7 (256 : Int).toNat))) ∧
    decompress (.int 256) 0 1 7 =
      .error (.range "Compressed values must be in the range 0 to 255") ∧
    decompress (.int 255) 0 6 2 =
      .error (.range "Decompressed value too large to fit into uint64") :=
  C3_decompress_range_errors 0 1 7 (by decide) 256

/-! ### C9: array semantics -/

theorem map_except_ok_iff {α β : Type} (f : α → Except CompressionError β) :
    ∀ (xs : List α) (ys : List β),
      map_except f xs = .ok ys ↔ xs.map f = ys.map Except.ok := by
  intro xs
  induction xs with
  | nil =>
    intro ys
    cases ys <;> simp [map_except]
  | cons x xs ih =>
    intro ys
    cases hfx : f x with
    | error e =>
      cases ys with
      | nil => simp [map_except, hfx]
      | cons y ys' => simp [map_except, hfx]
    | ok b =>
      cases hrest : map_except f xs with
      | error e2 =>
        cases ys with
        | nil => simp [map_except, hfx, hrest]
        | cons y ys' =>
          simp only [map_except, hfx, hrest, List.map_cons, List.cons.injEq,
            Except.ok.injEq]
          constructor
          · intro hfalse
            exact absurd hfalse (by simp)
          · rintro ⟨-, hmap⟩
            have hok := (ih ys').mpr hmap
            rw [hrest] at hok
            exact absurd hok (by simp)
      | ok bs =>
        cases ys with
        | nil =>
          simp [map_except, hfx, hrest]
        | cons y ys' =>
          have hihr := ih ys'
          rw [hrest] at hihr
          simp only [map_except, hfx, hrest, List.map_cons, List.cons.injEq,
            Except.ok.injEq]
          constructor
          · rintro ⟨rfl, rfl⟩
            exact ⟨rfl, hihr.mp rfl⟩
          · rintro ⟨rfl, hmap⟩
            have hbs := hihr.mpr hmap
            exact ⟨rfl, by injection hbs⟩

theorem map_except_error {α β : Type} (f : α → Except CompressionError β) :
    ∀ (xs : List α) (x : α), x ∈ xs → ∀ e, f x = .error e →
      ∃ e2, map_except f xs = .error e2 := by
  intro xs
  induction xs with
  | nil =>
    intro x hx
    cases hx
  | cons a as ih =>
    intro x hx e hfe
    rcases List.mem_cons.mp hx with rfl | hmem
    · exact ⟨e, by simp [map_except, hfe]⟩
    · cases hfa : f a with
      | error e2 => exact ⟨e2, by simp [map_except, hfa]⟩
      | ok b =>
        obtain ⟨e2, he2⟩ := ih x hmem e hfe
        exact ⟨e2, by simp [map_except, hfa, he2]⟩

/-- C9: under a valid scheme, applying compress or decompress to an array
equals applying the scalar version element-wise — the call succeeds with `ys`
exactly when the scalar results are `ys` in the same order (hence the same
length/shape) — and if any single element fails, the whole call fails with an
error and no per-element partial results are returned. -/
theorem C9_array_semantics (s k m : Nat) (hv : scheme_valid s k m = true)
    (vs : List PyNum) :
    (∀ ys : List Nat, compress_array vs s k m = .ok ys ↔
        vs.map (fun v => compress v s k m) = ys.map Except.ok) ∧
    (∀ ys : List Int, decompress_array vs s k m = .ok ys ↔
        vs.map (fun v => decompress v s k m) = ys.map Except.ok) ∧
    (∀ v ∈ vs, ∀ e, compress v s k m = .error e →
        ∃ e2, compress_array vs s k m = .error e2) ∧
    (∀ v ∈ vs, ∀ e, decompress v s k m = .error e →
        ∃ e2, decompress_array vs s k m = .error e2) := by
  unfold compress_array decompress_array
  rw [if_pos hv, if_pos hv]
  exact ⟨fun ys => map_except_ok_iff _ vs ys, fun ys => map_except_ok_iff _ vs ys,
    fun v hv' e he => map_except_error _ vs v hv' e he,
    fun v hv' e he => map_except_error _ vs v hv' e he⟩

/-- Witness for C9 at scheme `(0,5,3)` and the array `[1, 2]`. -/
theorem C9_array_semantics_witness :
    (∀ ys : List Nat, compress_array [.int 1, .int 2] 0 5 3 = .ok ys ↔
        [PyNum.int 1, PyNum.int 2].map (fun v => compress v 0 5 3) = ys.map Except.ok) ∧
    (∀ ys : List Int, decompress_array [.int 1, .int 2] 0 5 3 = .ok ys ↔
        [PyNum.int 1, PyNum.int 2].map (fun v => decompress v 0 5 3) = ys.map Except.ok) ∧
    (∀ v ∈ [PyNum.int 1, PyNum.int 2], ∀ e, compress v 0 5 3 = .error e →
        ∃ e2, compress_array [.int 1, .int 2] 0 5 3 = .error e2) ∧
    (∀ v ∈ [PyNum.int 1, PyNum.int 2], ∀ e, decompress v 0 5 3 = .error e →
        ∃ e2, decompress_array [.int 1, .int 2] 0 5 3 = .error e2) :=
  C9_array_semantics 0 5 3 (by decide) [.int 1, .int 2]

/-! ### C5: variance is zero on exact codes and monotone in the exponent -/

theorem variance_nonneg (k m c : Nat) : 0 ≤ variance k m c := by
  unfold variance
  split
  · exact le_refl 0
  split
  · exact sq_nonneg _
  · positivity

theorem variance_zero (k m c : Nat) (h : c >>> m ≤ 1) : variance k m c = 0 := by
  unfold variance
  rw [if_pos h]

theorem variance_mono (k m c₁ c₂ : Nat) (h2 : c₂ < 2 ^ (k + m))
    (he : c₁ >>> m < c₂ >>> m) : variance k m c₁ ≤ variance k m c₂ := by
  by_cases h1 : c₁ >>> m ≤ 1
  · rw [variance_zero k m c₁ h1]
    exact variance_nonneg k m c₂
  · push_neg at h1
    have he2k : c₂ >>> m < 2 ^ k := by
      rw [Nat.shiftRight_eq_div_pow]
      rw [Nat.div_lt_iff_lt_mul (Nat.two_pow_pos m)]
      calc c₂ < 2 ^ (k + m) := h2
        _ = 2 ^ k * 2 ^ m := Nat.pow_add 2 k m
    unfold variance
    rw [if_neg (by omega), if_neg (fun hcon => absurd hcon.1 (by omega)),
      if_neg (by omega : ¬ c₂ >>> m ≤ 1)]
    by_cases hmax : c₂ >>> m = 2 ^ k - 1 ∧ c₂ % 2 ^ m = 2 ^ m - 1
    · rw [if_pos hmax]
      have hk2 : 2 ≤ k := by
        have h1' := hmax.1
        by_contra hklt
        push_neg at hklt
        interval_cases k <;> simp_all <;> omega
      have hnat : 2 * 4 ^ (c₁ >>> m - 2) + 1 ≤ 6 * max_value k m ^ 2 := by
        have h41 : 1 ≤ 4 ^ (c₁ >>> m - 2) := Nat.one_le_pow _ _ (by norm_num)
        have hpow : 4 ^ (c₁ >>> m - 2) ≤ 4 ^ (2 ^ k - 2) :=
          Nat.pow_le_pow_right (by norm_num) (by omega)
        have hmax_ge : 2 ^ (2 ^ k - 2) ≤ max_value k m := by
          unfold max_value
          rw [if_neg (by omega), Nat.shiftLeft_eq]
          have h2m : 2 ≤ 2 ^ (m + 1) := by
            calc (2 : Nat) = 2 ^ 1 := by norm_num
              _ ≤ 2 ^ (m + 1) := Nat.pow_le_pow_right (by norm_num) (by omega)
          calc 2 ^ (2 ^ k - 2) = 1 * 2 ^ (2 ^ k - 2) := (Nat.one_mul _).symm
            _ ≤ (2 ^ (m + 1) - 1) * 2 ^ (2 ^ k - 2) :=
                Nat.mul_le_mul_right _ (by omega)
        have hmaxsq : 4 ^ (2 ^ k - 2) ≤ max_value k m ^ 2 := by
          have h4 : (4 : Nat) ^ (2 ^ k - 2) = (2 ^ (2 ^ k - 2)) ^ 2 := by
            rw [show (4 : Nat) = 2 ^ 2 by norm_num, ← Nat.pow_mul, ← Nat.pow_mul,
              Nat.mul_comm]
          rw [h4]
          exact Nat.pow_le_pow_left hmax_ge 2
        calc 2 * 4 ^ (c₁ >>> m - 2) + 1 ≤ 3 * 4 ^ (c₁ >>> m - 2) := by omega
          _ ≤ 3 * 4 ^ (2 ^ k - 2) := Nat.mul_le_mul_left _ hpow
          _ ≤ 3 * max_value k m ^ 2 := Nat.mul_le_mul_left _ hmaxsq
          _ ≤ 6 * max_value k m ^ 2 := Nat.mul_le_mul_right _ (by norm_num)
      rw [div_le_iff (by norm_num : (0 : ℚ) < 6)]
      have hq : ((2 * 4 ^ (c₁ >>> m - 2) + 1 : Nat) : ℚ) ≤
          ((6 * max_value k m ^ 2 : Nat) : ℚ) := Nat.cast_le.mpr hnat
      push_cast at hq
      linarith
    · rw [if_neg hmax]
      have hle : (4 : ℚ) ^ (c₁ >>> m - 2) ≤ 4 ^ (c₂ >>> m - 2) :=
        pow_le_pow_right (by norm_num) (by omega)
      rw [div_le_div_right (by norm_num : (0 : ℚ) < 6)]
      linarith

theorem decompress_var_ok_parts (s k m : Nat) (hv : scheme_valid s k m = true)
    (c : Nat) (r : Int × ℚ)
    (h : decompress_var (.int c) s k m = .ok r) :
    r.2 = variance k m (mag_code s k m c) ∧ mag_code s k m c < 2 ^ (k + m) := by
  rw [decompress_var_int_eq s k m hv c] at h
  rw [Int.toNat_natCast] at h
  by_cases h1 : (c : Int) < 0 ∨ ((2 ^ (s + k + m) - 1 : Nat) : Int) < (c : Int)
  · rw [if_pos h1] at h
    exact absurd h (by simp)
  · rw [if_neg h1] at h
    by_cases h2 : 2 ^ 64 - 1 < decompress_mag k m (mag_code s k m c)
    · rw [if_pos h2] at h
      exact absurd h (by simp)
    · rw [if_neg h2] at h
      push_neg at h1
      have hle : c ≤ 2 ^ (s + k + m) - 1 := by exact_mod_cast h1.2
      have hcbound : c < 2 ^ (s + k + m) := by
        have hpos : 1 ≤ 2 ^ (s + k + m) := Nat.one_le_two_pow
        omega
      have hmc : mag_code s k m c < 2 ^ (k + m) := by
        unfold mag_code
        by_cases hs1 : s = 1
        · rw [if_pos hs1]
          exact Nat.mod_lt _ (Nat.two_pow_pos _)
        · rw [if_neg hs1]
          rcases (scheme_valid_iff s k m).mp hv with ⟨hs01, -⟩
          rcases hs01 with rfl | rfl
          · simpa using hcbound
          · exact absurd rfl hs1
      refine ⟨?_, hmc⟩
      by_cases h3 : s = 1 ∧ 2 ^ (k + m) ≤ c
      · rw [if_pos h3] at h
        injection h with h'
        rw [← h']
      · rw [if_neg h3] at h
        injection h with h'
        rw [← h']

/-- C5: under a valid scheme, the variance component returned by decompress
with `return_variance=True` is exactly 0 for every code whose exponent field
is 0 or 1, and is non-decreasing as the exponent bucket index of the code
(the exponent field of its magnitude part) increases. -/
theorem C5_variance_monotone (s k m : Nat) (hv : scheme_valid s k m = true)
    (c₁ c₂ : Nat) (r₁ r₂ : Int × ℚ)
    (h₁ : decompress_var (.int c₁) s k m = .ok r₁)
    (h₂ : decompress_var (.int c₂) s k m = .ok r₂) :
    (mag_code s k m c₁ >>> m ≤ 1 → r₁.2 = 0) ∧
    (mag_code s k m c₁ >>> m < mag_code s k m c₂ >>> m → r₁.2 ≤ r₂.2) := by
  obtain ⟨hv₁, hb₁⟩ := decompress_var_ok_parts s k m hv c₁ r₁ h₁
  obtain ⟨hv₂, hb₂⟩ := decompress_var_ok_parts s k m hv c₂ r₂ h₂
  constructor
  · intro hz
    rw [hv₁]
    exact variance_zero k m _ hz
  · intro hlt
    rw [hv₁, hv₂]
    exact variance_mono k m _ _ hb₂ hlt

/-- Witness for C5 at scheme `(0,5,3)`, codes 8 (exponent 1, exact) and
16 (exponent 2). -/
theorem C5_variance_monotone_witness :
    (mag_code 0 5 3 8 >>> 3 ≤ 1 →
      ((8 : Int), variance 5 3 (mag_code 0 5 3 8)).2 = 0) ∧
    (mag_code 0 5 3 8 >>> 3 < mag_code 0 5 3 16 >>> 3 →
      ((8 : Int), variance 5 3 (mag_code 0 5 3 8)).2 ≤
        ((16 : Int), variance 5 3 (mag_code 0 5 3 16)).2) :=
  C5_variance_monotone 0 5 3 (by decide) 8 16
    ((8 : Int), variance 5 3 (mag_code 0 5 3 8))
    ((16 : Int), variance 5 3 (mag_code 0 5 3 16))
    (by rfl) (by rfl)

/-! ### C6: signed scheme symmetry -/

/-- C6: for every signed scheme (`s = 1`) and every valid nonzero magnitude
`v`, the code of `-v` is the code `c` of `v` with the sign bit set (`c` fits
in `k + m` bits, so setting the top bit is adding `2^(k+m)`), decompressing
the two codes yields negated values (or the identical error), and compressing
the value 0 yields code 0, never the sign-bit-only code. -/
theorem C6_signed_symmetry (k m : Nat) (hv : scheme_valid 1 k m = true) (v : Nat)
    (h1 : 1 ≤ v) (hmax : v ≤ max_value k m) :
    ∃ c : Nat, compress (.int v) 1 k m = .ok c ∧ c < 2 ^ (k + m) ∧
      compress (.int (-(v : Int))) 1 k m = .ok (c + 2 ^ (k + m)) ∧
      decompress (.int ((c + 2 ^ (k + m) : Nat) : Int)) 1 k m =
        (decompress (.int (c : Int)) 1 k m).map (fun x => -x) ∧
      compress (.int 0) 1 k m = .ok 0 := by
  have h8 : 1 + k + m = 8 := ((scheme_valid_iff 1 k m).mp hv).2
  have hc : compress_mag k m v < 2 ^ (k + m) :=
    compress_mag_lt k m v (by omega) (by omega) hmax
  have hpow2 : (2 : Nat) ^ (1 + k + m) = 2 * 2 ^ (k + m) := by
    rw [show 1 + k + m = (k + m) + 1 by omega, Nat.pow_succ]
    ring
  refine ⟨compress_mag k m v, ?_, hc, ?_, ?_, ?_⟩
  · rw [compress_int_eq 1 k m hv]
    simp only [Int.natAbs_ofNat]
    rw [if_neg (by omega)]
    rw [if_neg (fun hcon => absurd hcon.2 (not_lt.mpr (Int.natCast_nonneg v)))]
  · rw [compress_int_eq 1 k m hv]
    simp only [Int.natAbs_neg, Int.natAbs_ofNat]
    rw [if_neg (by omega)]
    rw [if_pos (show True ∧ -(v : Int) < 0 from
      ⟨trivial, neg_lt_zero.mpr (by exact_mod_cast h1)⟩)]
  · rw [decompress, decompress, decompress_var_int_eq 1 k m hv,
      decompress_var_int_eq 1 k m hv, Int.toNat_natCast, Int.toNat_natCast]
    have hA : compress_mag k m v + 2 ^ (k + m) ≤ 2 ^ (1 + k + m) - 1 := by omega
    have hB : compress_mag k m v ≤ 2 ^ (1 + k + m) - 1 := by omega
    rw [if_neg (show ¬ (((compress_mag k m v + 2 ^ (k + m) : Nat) : Int) < 0 ∨
        ((2 ^ (1 + k + m) - 1 : Nat) : Int) <
          ((compress_mag k m v + 2 ^ (k + m) : Nat) : Int)) by
      push_neg
      exact ⟨Int.natCast_nonneg _, by exact_mod_cast hA⟩)]
    rw [if_neg (show ¬ (((compress_mag k m v : Nat) : Int) < 0 ∨
        ((2 ^ (1 + k + m) - 1 : Nat) : Int) < ((compress_mag k m v : Nat) : Int)) by
      push_neg
      exact ⟨Int.natCast_nonneg _, by exact_mod_cast hB⟩)]
    have hmc1 : mag_code 1 k m (compress_mag k m v + 2 ^ (k + m)) =
        compress_mag k m v := by
      unfold mag_code
      rw [if_pos rfl, Nat.add_mod_right, Nat.mod_eq_of_lt hc]
    have hmc2 : mag_code 1 k m (compress_mag k m v) = compress_mag k m v := by
      unfold mag_code
      rw [if_pos rfl, Nat.mod_eq_of_lt hc]
    rw [hmc1, hmc2]
    by_cases hof : 2 ^ 64 - 1 < decompress_mag k m (compress_mag k m v)
    · rw [if_pos hof, if_pos hof]
      rfl
    · rw [if_neg hof, if_neg hof]
      rw [if_pos (show (1 : Nat) = 1 ∧
          2 ^ (k + m) ≤ compress_mag k m v + 2 ^ (k + m) from
        ⟨rfl, Nat.le_add_left _ _⟩)]
      rw [if_neg (fun hcon => absurd hcon.2 (by omega))]
      rfl
  · rw [compress_int_eq 1 k m hv]
    rw [show ((0 : Int).natAbs) = 0 from rfl]
    rw [if_neg (by omega)]
    rw [if_neg (fun hcon => absurd hcon.2 (by norm_num))]
    have hz : compress_mag k m 0 = 0 := by
      unfold compress_mag
      rw [if_pos (Nat.two_pow_pos _)]
    rw [hz]

/-- Witness for C6 at the shipped signed scheme `(1,4,3)` and magnitude 16. -/
theorem C6_signed_symmetry_witness :
    ∃ c : Nat, compress (.int 16) 1 4 3 = .ok c ∧ c < 2 ^ (4 + 3) ∧
      compress (.int (-(16 : Int))) 1 4 3 = .ok (c + 2 ^ (4 + 3)) ∧
      decompress (.int ((c + 2 ^ (4 + 3) : Nat) : Int)) 1 4 3 =
        (decompress (.int (c : Int)) 1 4 3).map (fun x => -x) ∧
      compress (.int 0) 1 4 3 = .ok 0 :=
  C6_signed_symmetry 4 3 (by decide) 16 (by decide) (by decide)

/-! ### C10: compress is monotone on scheme (0,5,3) -/

theorem compress_nat_eq (s k m : Nat) (hv : scheme_valid s k m = true) (n : Nat)
    (hn : n ≤ max_value k m) :
    compress (.int (n : Int)) s k m = .ok (compress_mag k m n) := by
  rw [compress_int_eq s k m hv]
  simp only [Int.natAbs_ofNat]
  rw [if_neg (by omega)]
  rw [if_neg (fun hcon => absurd hcon.2 (not_lt.mpr (Int.natCast_nonneg n)))]

/-- C10: for the scheme `(0,5,3)`, compress is monotone non-decreasing on the
whole valid input range `[0, 16106127360]`; consequently the preimages of the
codes are contiguous intervals in increasing code order, and the preimage of
the top code 255 is the single value 16106127360. -/
theorem C10_compress_monotone_053 (a b : Nat) (hab : a ≤ b) (hb : b ≤ 16106127360) :
    (∃ ca cb : Nat, compress (.int (a : Int)) 0 5 3 = .ok ca ∧
      compress (.int (b : Int)) 0 5 3 = .ok cb ∧ ca ≤ cb) ∧
    (∀ x : Nat, x ≤ 16106127360 →
      (compress (.int (x : Int)) 0 5 3 = .ok 255 ↔ x = 16106127360)) := by
  have hv : scheme_valid 0 5 3 = true := by decide
  have hmv : max_value 5 3 = 16106127360 := by decide
  have hbig : (16106127360 : Nat) < 2 ^ 300 := by norm_num
  constructor
  · exact ⟨compress_mag 5 3 a, compress_mag 5 3 b,
      compress_nat_eq 0 5 3 hv a (by omega),
      compress_nat_eq 0 5 3 hv b (by omega),
      compress_mag_mono 5 3 a b hab (by omega)⟩
  · intro x hx
    constructor
    · intro hcode
      rw [compress_nat_eq 0 5 3 hv x (by omega)] at hcode
      injection hcode with hcm
      by_contra hne
      have hxlt : x < 16106127360 := by omega
      unfold compress_mag at hcm
      by_cases hlin : x < 2 ^ (3 + 1)
      · rw [if_pos hlin] at hcm
        omega
      · rw [if_neg hlin] at hcm
        push_neg at hlin
        have hx300 : x < 2 ^ 300 := by omega
        obtain ⟨hdl, hdu⟩ := lg_div_bounds 3 x hlin hx300
        have hpa : 3 + 1 ≤ lg x := le_lg (3 + 1) x hlin hx300
        rw [Nat.shiftLeft_eq, Nat.shiftRight_eq_div_pow] at hcm
        have h23 : (2 : Nat) ^ 3 = 8 := by norm_num
        have h24 : (2 : Nat) ^ (3 + 1) = 16 := by norm_num
        rw [h23] at hcm hdl
        rw [h24] at hdu
        generalize hd : x / 2 ^ (lg x - 3) = d at hcm hdl hdu
        have hE : lg x - 3 + 1 = 31 ∧ d = 15 := by omega
        have hlg : lg x = 33 := by omega
        rw [hlg] at hd
        norm_num at hd
        omega
    · rintro rfl
      rw [compress_nat_eq 0 5 3 hv _ (by omega)]
      rfl

/-- Witness for C10 at the pair `a = 20 ≤ b = 24` (codes 18 and 20). -/
theorem C10_compress_monotone_053_witness :
    (∃ ca cb : Nat, compress (.int ((20 : Nat) : Int)) 0 5 3 = .ok ca ∧
      compress (.int ((24 : Nat) : Int)) 0 5 3 = .ok cb ∧ ca ≤ cb) ∧
    (∀ x : Nat, x ≤ 16106127360 →
      (compress (.int (x : Int)) 0 5 3 = .ok 255 ↔ x = 16106127360)) :=
  C10_compress_monotone_053 20 24 (by decide) (by decide)

/-! ### C1: round trip with the negative-zero exception -/

/-- Bool-valued round-trip check for one scheme and one code: if the code
decompresses, compressing the result returns the code back — except that for
`s = 1` the negative-zero code `2^(k+m)` decompresses to 0 and recompresses
to code 0. -/
def round_trip_ok (s k m c : Nat) : Bool :=
  match decompress (.int (c : Int)) s k m with
  | .error _ => true
  | .ok v =>
    decide (compress (.int v) s k m =
      .ok (if s = 1 ∧ c = 2 ^ (k + m) then 0 else c)) &&
    decide (s = 1 ∧ c = 2 ^ (k + m) → v = 0)

set_option maxRecDepth 10000 in
set_option maxHeartbeats 3200000 in
theorem round_trip_all : ∀ s, s < 2 → ∀ k, k < 9 → ∀ c, c < 256 →
    round_trip_ok s k (8 - s - k) c = true := by decide

/-- C1: for every scheme `(s,k,m)` with `s + k + m = 8` and every valid code
`c` that decompresses successfully, compressing the decompressed value yields
code `c` back, with the single exception when `s = 1`: the negative-zero code
`2^(k+m)` decompresses to 0, and compressing 0 yields code 0, never the
negative-zero code. -/
theorem C1_round_trip (s k m c : Nat) (v : Int) (hs : s ≤ 1)
    (h8 : s + k + m = 8) (hc : c < 256)
    (hdec : decompress (.int (c : Int)) s k m = .ok v) :
    compress (.int v) s k m = .ok (if s = 1 ∧ c = 2 ^ (k + m) then 0 else c) ∧
    (s = 1 ∧ c = 2 ^ (k + m) → v = 0) := by
  have hm : m = 8 - s - k := by omega
  have h := round_trip_all s (by omega) k (by omega) c hc
  rw [← hm] at h
  unfold round_trip_ok at h
  rw [hdec] at h
  simp only [Bool.and_eq_true, decide_eq_true_eq] at h
  exact h

/-- Witness for C1 at scheme `(0,5,3)`: code 17 decompresses to 18, which
compresses back to 17. -/
theorem C1_round_trip_witness :
    compress (.int 18) 0 5 3 = .ok (if 0 = 1 ∧ 17 = 2 ^ (5 + 3) then 0 else 17) ∧
    ((0 : Nat) = 1 ∧ (17 : Nat) = 2 ^ (5 + 3) → (18 : Int) = 0) :=
  C1_round_trip 0 5 3 17 18 (by decide) (by decide) (by decide) (by decide)

end STIXCore
